import Mathlib

/-!
Verification of the merge/reorder pipeline for affective-expression tables.

The development shallowly embeds the two Python modules
`merge_affectiveExpression.py` and `merge_rearrange.py`.  Python strings are
modelled as lists of characters; Python's whitespace set (for `str.strip` and
the regex class `\s`) is modelled by its ASCII portion, and `str.lower` /
`str.upper` by the basic-latin case maps `Char.toLower` / `Char.toUpper`.
-/

namespace CMF

/-- Python strings, modelled as lists of characters. -/
abbrev PyStr := List Char

/-- ASCII whitespace, the characters recognised by Python `str.strip()` and
by the regex class `\s` (space, tab, newline, carriage return, vertical tab,
form feed). -/
def isPySpace (c : Char) : Bool :=
  c == ' ' || c == '\t' || c == '\n' || c == '\r' || c == '\x0B' || c == '\x0C'

/-- Removal of trailing characters satisfying a predicate (the shared core of
`str.strip` and `str.rstrip`). -/
def dropEndWhile (p : Char → Bool) (s : PyStr) : PyStr :=
  (s.reverse.dropWhile p).reverse

/-- Python `s.strip()`: drop leading and trailing whitespace. -/
def pyStrip (s : PyStr) : PyStr :=
  dropEndWhile isPySpace (s.dropWhile isPySpace)

/-- Worker for `collapseWS`; the flag records whether the previous character
of the input was whitespace (i.e. whether we are inside a whitespace run that
has already emitted its single space). -/
def collapseWSAux : Bool → PyStr → PyStr
  | _, [] => []
  | prevSpace, c :: rest =>
    if isPySpace c then
      if prevSpace then collapseWSAux true rest
      else ' ' :: collapseWSAux true rest
    else c :: collapseWSAux false rest

/-- Python `_MULTISPACE_RE.sub(" ", s)` for the pattern `\s+`: every maximal
whitespace run is replaced by a single space. -/
def collapseWS (s : PyStr) : PyStr :=
  collapseWSAux false s

/-- Python `s.rstrip("/")`: drop every trailing slash. -/
def pyRstripSlash (s : PyStr) : PyStr :=
  dropEndWhile (fun c => c == '/') s

/-- Python `s.lower()` (basic-latin model). -/
def pyLower (s : PyStr) : PyStr :=
  s.map Char.toLower

/-- Python `s.upper()` (basic-latin model). -/
def pyUpper (s : PyStr) : PyStr :=
  s.map Char.toUpper

/-- Function `normalize_code` of `src/merge_rearrange.py`: strip outer
whitespace, collapse whitespace runs to one space, drop trailing slashes,
lowercase. -/
def normalize_code (code : PyStr) : PyStr :=
  pyLower (pyRstripSlash (collapseWS (pyStrip code)))

/-- Single application of the regex substitution
`_HEADER_PREFIX_RE.sub("", header)` for the pattern `^\s*\d+\.\s*` of
`src/merge_affectiveExpression.py`: if the string starts with optional
whitespace, one or more digits and a dot, that leading marker and the
whitespace following it are removed; otherwise the string is unchanged. -/
def dropEnumMark (s : PyStr) : PyStr :=
  let s1 := s.dropWhile isPySpace
  if (s1.takeWhile Char.isDigit).isEmpty then s
  else
    match s1.dropWhile Char.isDigit with
    | '.' :: rest => rest.dropWhile isPySpace
    | _ => s

/-- Function `clean_header` of `src/merge_affectiveExpression.py`: remove one
leading enumeration marker, then strip surrounding whitespace. -/
def clean_header (s : PyStr) : PyStr :=
  pyStrip (dropEnumMark s)

/-- Function `collect_sentences` of `src/merge_affectiveExpression.py`: the
cells of one column in row order (`none` is a null cell dropped by
`series.dropna()`); present cells are trimmed and kept when non-empty. -/
def collect_sentences : List (Option PyStr) → List PyStr
  | [] => []
  | none :: rest => collect_sentences rest
  | some v :: rest =>
    let text := pyStrip v
    if text.isEmpty then collect_sentences rest else text :: collect_sentences rest

/-- Merged records are `(sample_code, gpt_paragraph)` pairs, the row shape of
the intermediate tables of both scripts. -/
abbrev Record := PyStr × PyStr

/-- Lookup in the ordered key/record mapping built by `rearrange_file`
(Python dict access `mapping[key]` / `key in mapping`). -/
def lookupKey (k : PyStr) : List (PyStr × Record) → Option Record
  | [] => none
  | (k2, r) :: rest => if k2 == k then some r else lookupKey k rest

/-- First loop of `rearrange_file` in `src/merge_rearrange.py`: walk the rows
and bind each normalized key to its first record (`if key not in mapping`). -/
def buildMappingAux (acc : List (PyStr × Record)) : List Record → List (PyStr × Record)
  | [] => acc
  | r :: rest =>
    match lookupKey (normalize_code r.1) acc with
    | some _ => buildMappingAux acc rest
    | none => buildMappingAux (acc ++ [(normalize_code r.1, r)]) rest

/-- Mapping from normalized sample code to first matching record. -/
def buildMapping (rows : List Record) : List (PyStr × Record) :=
  buildMappingAux [] rows

/-- Second loop of `rearrange_file`: for each desired code in order, emit the
mapped record or report the code as missing. -/
def reorderRows (mapping : List (PyStr × Record)) : List PyStr → List Record × List PyStr
  | [] => ([], [])
  | code :: rest =>
    let tail := reorderRows mapping rest
    match lookupKey (normalize_code code) mapping with
    | some r => (r :: tail.1, tail.2)
    | none => (tail.1, code :: tail.2)

/-- Core of `rearrange_file` in `src/merge_rearrange.py`: the emitted rows
(`output_rows`) and the unmatched canonical codes (`missing`). -/
def rearrangeCore (rows : List Record) (desired : List PyStr) : List Record × List PyStr :=
  reorderRows (buildMapping rows) desired

instance {E A : Type} [DecidableEq E] [DecidableEq A] : DecidableEq (Except E A)
  | .ok a, .ok b =>
    if h : a = b then isTrue (by rw [h]) else isFalse (by intro hc; cases hc; exact h rfl)
  | .ok _, .error _ => isFalse (by intro hc; cases hc)
  | .error _, .ok _ => isFalse (by intro hc; cases hc)
  | .error e, .error f =>
    if h : e = f then isTrue (by rw [h]) else isFalse (by intro hc; cases hc; exact h rfl)

/-- Instrumented model of `backoff_call` in `src/merge_affectiveExpression.py`.
The first argument gives the outcome of each attempt of the wrapped call; the
counter arguments accumulate the number of invocations made and the total
units slept (`time.sleep(2 ** attempt)` between attempts).  The structural
`remaining` counter stands for the iterations left in `range(retries)`, so
`remaining = 0` inside the loop corresponds to `attempt == retries - 1`, the
final attempt whose error is re-raised. -/
def backoffLoop {E A : Type} (call : Nat → Except E A) :
    Nat → Nat → Nat → Nat → Option (Except E A) × Nat × Nat
  | 0, _, calls, slept => (none, calls, slept)
  | remaining + 1, attempt, calls, slept =>
    match call attempt with
    | .ok a => (some (.ok a), calls + 1, slept)
    | .error e =>
      if remaining == 0 then (some (.error e), calls + 1, slept)
      else backoffLoop call remaining (attempt + 1) (calls + 1) (slept + 2 ^ attempt)

/-- Function `backoff_call` with its default of five attempts generalised to
`retries`; the result records the propagated outcome (`none` only when
`retries = 0`, where the Python source falls through to `return ""`), the
number of invocations of the wrapped call, and the cumulative sleep. -/
def backoff_call {E A : Type} (call : Nat → Except E A) (retries : Nat) :
    Option (Except E A) × Nat × Nat :=
  backoffLoop call retries 0 0 0

/-- Failure cases of `call_openai_merge`: the missing-credential
`EnvironmentError` and the errors surfaced by the OpenAI SDK block (import
failure, transport failure of both call shapes). -/
inductive MergeErr : Type
  | credential : MergeErr
  | net : PyStr → MergeErr
deriving DecidableEq

/-- Leading instruction text of the prompt built by `call_openai_merge`. -/
def promptHeader : PyStr :=
  String.toList "아래 문장들은 소재에 대한 감성언어들을 표현한거야. 전부 합쳐서 문단으로 만들어 주고, 문장 끝맺음을 ~음. 체로 해줘. 출력은 하나의 문단만 제공해줘."

/-- Bullet list `"\n".join(f"- {s}" for s in sentences)`. -/
def bulletLines (sentences : List PyStr) : PyStr :=
  List.intercalate ['\n'] (sentences.map (fun s => '-' :: ' ' :: s))

/-- Full user prompt `f"{prompt_header}\n\n문장 목록:\n{bullet_list}"`. -/
def userContentOf (sentences : List PyStr) : PyStr :=
  promptHeader ++ String.toList "\n\n문장 목록:\n" ++ bulletLines sentences

/-- Function `call_openai_merge` of `src/merge_affectiveExpression.py`.  The
process environment is passed explicitly (`env` is `os.getenv("OPENAI_API_KEY")`)
and `net` abstracts the whole OpenAI SDK block (import, chat call, responses
fallback) as one remote interaction on the built prompt.  The second
component counts remote interactions performed. -/
def call_openai_merge (env : Option PyStr) (net : PyStr → Except MergeErr PyStr)
    (sentences : List PyStr) : Except MergeErr PyStr × Nat :=
  if sentences.isEmpty then (.ok [], 0)
  else
    let userContent := userContentOf sentences
    match env with
    | none => (.error .credential, 0)
    | some _ => (net userContent, 1)

/-- Stub remote service used in concrete runs. -/
def netStub : PyStr → Except MergeErr PyStr :=
  fun _ => .ok ['o', 'k']

/-- Loaded table at the reorder stage: named columns with their cell values
in row order. -/
structure Frame : Type where
  cols : List (PyStr × List PyStr)
deriving DecidableEq

/-- Column labels of a frame (`df.columns`). -/
def Frame.columns (df : Frame) : List PyStr :=
  df.cols.map (fun c => c.1)

/-- Data of the first column named `name` (`df[name]`); defaults to the empty
column when the name is absent. -/
def Frame.colData (df : Frame) (name : PyStr) : List PyStr :=
  ((df.cols.find? (fun c => c.1 == name)).map (fun c => c.2)).getD []

/-- Name of the sample-code column. -/
def sampleCodeName : PyStr := String.toList "sample_code"

/-- Name of the merged-paragraph column. -/
def gptParagraphName : PyStr := String.toList "gpt_paragraph"

/-- Message of the `ValueError` raised by `ensure_columns`. -/
def minColsMsg : PyStr := String.toList "입력 CSV에 최소 2개 열이 필요합니다."

/-- Function `ensure_columns` of `src/merge_rearrange.py`: select the
`sample_code` and `gpt_paragraph` columns when both exist, otherwise fall
back to the first two columns renamed, and raise a `ValueError` when the
table has fewer than two columns. -/
def ensure_columns (df : Frame) : Except PyStr Frame :=
  if df.columns.contains sampleCodeName && df.columns.contains gptParagraphName then
    .ok ⟨[(sampleCodeName, df.colData sampleCodeName),
          (gptParagraphName, df.colData gptParagraphName)]⟩
  else
    match df.cols with
    | c1 :: c2 :: _ => .ok ⟨[(sampleCodeName, c1.2), (gptParagraphName, c2.2)]⟩
    | _ => .error minColsMsg

/-- Rows of the two-column frame produced by `ensure_columns`
(`df.iterrows()` over the selected columns). -/
def Frame.pairRows (df : Frame) : List Record :=
  List.zip (df.colData sampleCodeName) (df.colData gptParagraphName)

/-- Reorder stage of `rearrange_file` including the `ensure_columns` check:
an error there aborts the file and no reordered output is produced. -/
def rearrangeChecked (df : Frame) (desired : List PyStr) :
    Except PyStr (List Record × List PyStr) :=
  match ensure_columns df with
  | .error e => .error e
  | .ok f => .ok (rearrangeCore f.pairRows desired)

/-- Whether the string still contains a word, i.e. a non-whitespace
character. -/
def hasWord (s : PyStr) : Bool :=
  s.any (fun c => !isPySpace c)

/-- Modelled from the spec: trim outer whitespace and collapse each internal
whitespace run to a single space, rendered directly from the words of §4.6 —
whitespace with no word before it or no word after it is dropped, and a
whitespace run standing between words becomes one space.  The flag records
whether a word character has been emitted immediately before. -/
def specTrimCollapseAux : Bool → PyStr → PyStr
  | _, [] => []
  | afterWord, c :: rest =>
    if isPySpace c then
      if afterWord && hasWord rest then ' ' :: specTrimCollapseAux false rest
      else specTrimCollapseAux false rest
    else c :: specTrimCollapseAux true rest

/-- Spec-side trim-and-collapse pass. -/
def specTrimCollapse (s : PyStr) : PyStr :=
  specTrimCollapseAux false s

/-- Modelled from the spec: strip a single trailing path-separator character
if one is present (and only one). -/
def stripOneTrailSlash (s : PyStr) : PyStr :=
  match s.reverse with
  | '/' :: rest => rest.reverse
  | _ => s

/-- Key normalization as claim C7 words it: trim, collapse, strip a single
trailing separator, lowercase. -/
def specNormalizeSingleSlash (s : PyStr) : PyStr :=
  pyLower (stripOneTrailSlash (specTrimCollapse s))

/-- Whether the first character, if any, is not whitespace. -/
def headNotSpace : PyStr → Bool
  | [] => true
  | c :: _ => !isPySpace c

/-- Invariant of collapsed strings: every whitespace character is a plain
space and is not followed by another whitespace character. -/
def wellSpaced : PyStr → Bool
  | [] => true
  | [c] => !isPySpace c || c == ' '
  | c :: d :: rest => (!isPySpace c || (c == ' ' && !isPySpace d)) && wellSpaced (d :: rest)

/-- Sample call for concrete runs: fails on attempts 0 and 1, succeeds on
attempt 2. -/
def callTwoFails : Nat → Except Nat Nat :=
  fun i => if i < 2 then .error i else .ok 7

/-- Sample call for concrete runs: fails on every attempt. -/
def callAllFail : Nat → Except Nat Nat :=
  fun i => .error i

example : normalize_code [' ', 'A', ' ', ' ', 'b', '/', '/'] = ['a', ' ', 'b'] := by decide

example : normalize_code ['a', ' ', '/'] = ['a', ' '] := by decide

example : clean_header ['1', '.', ' ', '2', '.', ' ', 'x'] = ['2', '.', ' ', 'x'] := by decide

example : collect_sentences [some [' ', 'a', ' '], none, some [' '], some ['b']] = [['a'], ['b']] := by
  decide

example : normalize_code (" A  b//".toList) = "a b".toList := by decide

example :
    rearrangeCore [(['a'], ['x']), (['B'], ['y'])] [['A'], ['b', ' '], ['C']] =
      ([(['a'], ['x']), (['B'], ['y'])], [['C']]) := by decide

example :
    rearrangeCore [(['A'], ['p', '1']), (['a', ' '], ['p', '2'])] [['a']] =
      ([(['A'], ['p', '1'])], []) := by decide

example :
    backoff_call (fun i => if i < 2 then .error i else .ok 99) 5 =
      (some (.ok 99), 3, 3) := by decide

example :
    backoff_call (fun i => (.error i : Except Nat Nat)) 5 =
      (some (.error 4), 5, 15) := by decide

example : call_openai_merge none netStub [['h', 'i']] = (.error .credential, 0) := rfl

example : call_openai_merge none netStub [] = (.ok [], 0) := rfl

example :
    backoff_call (fun _ => (call_openai_merge none netStub [['h', 'i']]).1) 5 =
      (some (.error .credential), 5, 15) := by decide

example :
    ensure_columns ⟨[(['a'], [['x']])]⟩ = .error minColsMsg := by decide

example :
    ensure_columns ⟨[(['a'], [['x']]), (['b'], [['y']])]⟩ =
      .ok ⟨[(sampleCodeName, [['x']]), (gptParagraphName, [['y']])]⟩ := by decide

example : specTrimCollapse [' ', 'a', ' ', ' ', 'b', ' '] = ['a', ' ', 'b'] := by decide

example : specNormalizeSingleSlash ['a', '/', '/'] = ['a', '/'] := by decide

example : normalize_code ['a', '/', '/'] = ['a'] := by decide

theorem dropEndWhile_eq_rdropWhile (p : Char → Bool) (s : PyStr) :
    dropEndWhile p s = s.rdropWhile p := rfl

theorem rdropWhile_append_chars (p : Char → Bool) (l1 l2 : PyStr) :
    (l1 ++ l2).rdropWhile p =
      if (l2.rdropWhile p).isEmpty then l1.rdropWhile p else l1 ++ l2.rdropWhile p := by
  simp only [List.rdropWhile, List.reverse_append, List.dropWhile_append,
    List.isEmpty_iff, List.reverse_eq_nil_iff]
  by_cases h : l2.reverse.dropWhile p = []
  · simp [h]
  · simp [h]

theorem rdropWhile_cons_chars (p : Char → Bool) (c : Char) (t : PyStr) :
    (c :: t).rdropWhile p =
      if (t.rdropWhile p).isEmpty then (if p c then [] else [c]) else c :: t.rdropWhile p := by
  have h := rdropWhile_append_chars p [c] t
  simp only [List.singleton_append] at h
  rw [h, List.rdropWhile_singleton]

theorem dropWhile_rdropWhile_comm (p : Char → Bool) (l : PyStr) :
    (l.rdropWhile p).dropWhile p = (l.dropWhile p).rdropWhile p := by
  induction l with
  | nil => simp
  | cons c t ih =>
    rw [rdropWhile_cons_chars, List.dropWhile_cons]
    by_cases hc : p c
    · by_cases ht : (t.rdropWhile p).isEmpty
      · have hall : ∀ x ∈ t, p x := by
          rw [List.isEmpty_iff] at ht
          exact List.rdropWhile_eq_nil_iff.mp ht
        have ht2 : t.dropWhile p = [] := by
          rw [List.dropWhile_eq_nil_iff]
          intro x hx
          exact hall x hx
        simp [hc, ht, ht2]
      · simp [hc, ht, List.dropWhile_cons, ih]
    · by_cases ht : (t.rdropWhile p).isEmpty
      · have hall : ∀ x ∈ t, p x := by
          rw [List.isEmpty_iff] at ht
          exact List.rdropWhile_eq_nil_iff.mp ht
        have ht2 : t.dropWhile p = [] := by
          rw [List.dropWhile_eq_nil_iff]
          intro x hx
          exact hall x hx
        rw [ht2] at ih ⊢
        simp [hc, ht, rdropWhile_cons_chars]
      · rw [if_neg ht, if_neg hc, rdropWhile_cons_chars, if_neg ht]
        simp [List.dropWhile_cons, hc]

theorem pyStrip_idem (s : PyStr) : pyStrip (pyStrip s) = pyStrip s := by
  show dropEndWhile isPySpace ((dropEndWhile isPySpace (s.dropWhile isPySpace)).dropWhile isPySpace)
      = dropEndWhile isPySpace (s.dropWhile isPySpace)
  rw [dropEndWhile_eq_rdropWhile, dropEndWhile_eq_rdropWhile, dropWhile_rdropWhile_comm,
    List.dropWhile_idempotent, List.rdropWhile_idempotent]

theorem collect_sentences_eq (cells : List (Option PyStr)) :
    collect_sentences cells =
      (cells.filterMap id).filterMap
        (fun v => if (pyStrip v).isEmpty then none else some (pyStrip v)) := by
  induction cells with
  | nil => rfl
  | cons c rest ih =>
    cases c with
    | none => simpa [collect_sentences] using ih
    | some v =>
      by_cases h : (pyStrip v).isEmpty
      · simp [collect_sentences, List.isEmpty_iff, h, List.isEmpty_iff.mp h, ih]
      · rw [List.isEmpty_iff] at h
        simp [collect_sentences, List.isEmpty_iff, h, ih]

/-- Claim C8: the Sentence Collector returns exactly the trimmed values of the
present cells that are non-empty after trimming, in row order (null cells are
dropped, not kept as empty strings), and no returned string is empty or
whitespace-only. -/
theorem sentence_collector_c8 (cells : List (Option PyStr)) :
    collect_sentences cells =
      (cells.filterMap id).filterMap
        (fun v => if (pyStrip v).isEmpty then none else some (pyStrip v)) ∧
    (collect_sentences cells).all (fun s => !s.isEmpty && !(pyStrip s).isEmpty) = true := by
  refine ⟨collect_sentences_eq cells, ?_⟩
  induction cells with
  | nil => rfl
  | cons c rest ih =>
    cases c with
    | none => simpa [collect_sentences] using ih
    | some v =>
      by_cases h : (pyStrip v).isEmpty
      · simp only [collect_sentences, h, if_pos]
        exact ih
      · simp only [collect_sentences, h, if_neg, Bool.false_eq_true, not_false_iff,
          List.all_cons, Bool.and_eq_true, ih, and_true]
        constructor
        · cases hb : (pyStrip v).isEmpty with
          | false => rfl
          | true => exact absurd hb h
        · rw [pyStrip_idem]
          cases hb : (pyStrip v).isEmpty with
          | false => rfl
          | true => exact absurd hb h

/-- Claim C5 counterexample: header normalization is not idempotent on every
header carrying a leading enumeration marker; `"1. 2. x"` cleans to `"2. x"`,
which cleans again to `"x"`. -/
theorem clean_header_c5_counterexample :
    clean_header (clean_header ['1', '.', ' ', '2', '.', ' ', 'x']) ≠
      clean_header ['1', '.', ' ', '2', '.', ' ', 'x'] := by decide

/-- Claim C5 (amended): header normalization removes one leading enumeration
marker per application, so it is idempotent exactly on the headers whose
cleaned form carries no further leading marker. -/
theorem clean_header_c5_amended (h : PyStr)
    (hfix : dropEnumMark (clean_header h) = clean_header h) :
    clean_header (clean_header h) = clean_header h := by
  show pyStrip (dropEnumMark (clean_header h)) = clean_header h
  rw [hfix]
  show pyStrip (pyStrip (dropEnumMark h)) = clean_header h
  rw [pyStrip_idem]
  rfl

/-- Witness for the amended claim C5 at the header `"1. foo"`. -/
theorem clean_header_c5_amended_witness :
    clean_header (clean_header ['1', '.', ' ', 'f', 'o', 'o']) =
      clean_header ['1', '.', ' ', 'f', 'o', 'o'] :=
  clean_header_c5_amended ['1', '.', ' ', 'f', 'o', 'o'] (by decide)

theorem geomSum_four : ∑ i ∈ Finset.range 4, 2 ^ i = 15 := by
  norm_num [Finset.sum_range_succ]

theorem backoffLoop_ok {E A : Type} (call : Nat → Except E A) (v : A) :
    ∀ (k remaining attempt calls slept : Nat), k < remaining →
      (∀ i, i < k → ∃ e, call (attempt + i) = .error e) →
      call (attempt + k) = .ok v →
      backoffLoop call remaining attempt calls slept =
        (some (.ok v), calls + k + 1, slept + ∑ i ∈ Finset.range k, 2 ^ (attempt + i)) := by
  intro k
  induction k with
  | zero =>
    intro remaining attempt calls slept hlt _ hok
    match remaining, hlt with
    | r + 1, _ =>
      rw [Nat.add_zero] at hok
      simp [backoffLoop, hok]
  | succ k ih =>
    intro remaining attempt calls slept hlt herr hok
    match remaining, hlt with
    | r + 1, hlt =>
      obtain ⟨e, he⟩ := herr 0 (Nat.succ_pos k)
      rw [Nat.add_zero] at he
      have hr : ¬(r == 0) = true := by
        simp only [beq_iff_eq]
        omega
      have hrec := ih r (attempt + 1) (calls + 1) (slept + 2 ^ attempt) (by omega)
        (fun i hi => by
          have hh := herr (i + 1) (by omega)
          rwa [show attempt + (i + 1) = attempt + 1 + i by omega] at hh)
        (by rwa [show attempt + 1 + k = attempt + (k + 1) by omega])
      simp only [backoffLoop, he, if_neg hr]
      rw [hrec]
      have hS : ∑ i ∈ Finset.range k, 2 ^ (attempt + 1 + i) =
          ∑ i ∈ Finset.range k, 2 ^ (attempt + (i + 1)) :=
        Finset.sum_congr rfl (fun i _ => by rw [show attempt + 1 + i = attempt + (i + 1) by omega])
      have hsum : slept + 2 ^ attempt + ∑ i ∈ Finset.range k, 2 ^ (attempt + 1 + i) =
          slept + ∑ i ∈ Finset.range (k + 1), 2 ^ (attempt + i) := by
        rw [Finset.sum_range_succ', hS, Nat.add_zero]
        omega
      rw [hsum]
      have hcalls : calls + 1 + k + 1 = calls + (k + 1) + 1 := by omega
      rw [hcalls]

theorem backoffLoop_error_step {E A : Type} (call : Nat → Except E A)
    (rem attempt calls slept : Nat) (e : E) (he : call attempt = .error e)
    (hrem : ¬(rem == 0) = true) :
    backoffLoop call (rem + 1) attempt calls slept =
      backoffLoop call rem (attempt + 1) (calls + 1) (slept + 2 ^ attempt) := by
  simp only [backoffLoop, he, if_neg hrem]

theorem backoffLoop_allFail {E A : Type} (call : Nat → Except E A) (f : Nat → E) :
    ∀ (remaining attempt calls slept : Nat), 0 < remaining →
      (∀ i, i < remaining → call (attempt + i) = .error (f (attempt + i))) →
      backoffLoop call remaining attempt calls slept =
        (some (.error (f (attempt + remaining - 1))), calls + remaining,
          slept + ∑ i ∈ Finset.range (remaining - 1), 2 ^ (attempt + i)) := by
  intro remaining
  induction remaining with
  | zero =>
    intro attempt calls slept h
    omega
  | succ r ih =>
    intro attempt calls slept _ herr
    have h0 := herr 0 (Nat.succ_pos r)
    rw [Nat.add_zero] at h0
    cases r with
    | zero => simp [backoffLoop, h0]
    | succ s =>
      have hr : ¬(s + 1 == 0) = true := by simp
      have hrec := ih (attempt + 1) (calls + 1) (slept + 2 ^ attempt) (Nat.succ_pos s)
        (fun i hi => by
          have hh := herr (i + 1) (by omega)
          rwa [show attempt + (i + 1) = attempt + 1 + i by omega] at hh)
      rw [backoffLoop_error_step call (s + 1) attempt calls slept (f attempt) h0 hr]
      rw [hrec]
      have harg : attempt + 1 + (s + 1) - 1 = attempt + (s + 1 + 1) - 1 := by omega
      have hcalls : calls + 1 + (s + 1) = calls + (s + 1 + 1) := by omega
      have hS : ∑ i ∈ Finset.range s, 2 ^ (attempt + 1 + i) =
          ∑ i ∈ Finset.range s, 2 ^ (attempt + (i + 1)) :=
        Finset.sum_congr rfl (fun i _ => by rw [show attempt + 1 + i = attempt + (i + 1) by omega])
      have hsum : slept + 2 ^ attempt + ∑ i ∈ Finset.range (s + 1 - 1), 2 ^ (attempt + 1 + i) =
          slept + ∑ i ∈ Finset.range (s + 1 + 1 - 1), 2 ^ (attempt + i) := by
        simp only [Nat.add_sub_cancel]
        rw [Finset.sum_range_succ', hS, Nat.add_zero]
        omega
      rw [harg, hcalls, hsum]

/-- Claim C3: the Retry Controller with five attempts returns the success
value after exactly `k + 1` invocations and `∑ i < k, 2 ^ i` slept units when
the wrapped call fails exactly `k < 5` times and then succeeds, and
propagates the error of the fifth attempt after exactly five invocations,
with no sleep after the final attempt (total sleep `1 + 2 + 4 + 8 = 15`). -/
theorem retry_controller_c3 {E A : Type} (call : Nat → Except E A) :
    (∀ (k : Nat) (v : A), k < 5 →
        (∀ i, i < k → ∃ e, call i = .error e) → call k = .ok v →
        backoff_call call 5 = (some (.ok v), k + 1, ∑ i ∈ Finset.range k, 2 ^ i)) ∧
    (∀ f : Nat → E, (∀ i, i < 5 → call i = .error (f i)) →
        backoff_call call 5 = (some (.error (f 4)), 5, 15)) := by
  constructor
  · intro k v hk herr hok
    have h := backoffLoop_ok call v k 5 0 0 0 hk (by simpa using herr) (by simpa using hok)
    simpa using h
  · intro f herr
    have h := backoffLoop_allFail call f 5 0 0 0 (by omega) (by simpa using herr)
    simpa [geomSum_four] using h

/-- Witness for claim C3: a call failing twice then succeeding, and a call
failing on all five attempts. -/
theorem retry_controller_c3_witness :
    backoff_call callTwoFails 5 = (some (.ok 7), 2 + 1, ∑ i ∈ Finset.range 2, 2 ^ i) ∧
    backoff_call callAllFail 5 = (some (.error 4), 5, 15) := by
  constructor
  · exact (retry_controller_c3 callTwoFails).1 2 7 (by omega)
      (fun i hi => ⟨i, by simp [callTwoFails, hi]⟩) (by simp [callTwoFails])
  · exact (retry_controller_c3 callAllFail).2 (fun i => i) (fun i _ => rfl)

/-- Claim C9: for the empty sentence list the Merge Client returns the empty
string with zero remote interactions, whatever the environment holds: no
network call and no credential check is reached. -/
theorem merge_client_c9 (env : Option PyStr) (net : PyStr → Except MergeErr PyStr) :
    call_openai_merge env net [] = (.ok [], 0) := rfl

/-- Claim C4 counterexample: with the credential absent and a non-empty
sentence list, the merge call wrapped in the Retry Controller is invoked five
times with backoff sleeps totalling 15 units — not exactly once with no
sleep as the claim states. -/
theorem credential_retry_c4_counterexample :
    backoff_call (fun _ => (call_openai_merge none netStub [['h', 'i']]).1) 5 =
      (some (.error .credential), 5, 15) ∧
    ¬((backoff_call (fun _ => (call_openai_merge none netStub [['h', 'i']]).1) 5).2.1 = 1 ∧
      (backoff_call (fun _ => (call_openai_merge none netStub [['h', 'i']]).1) 5).2.2 = 0) := by
  constructor
  · decide
  · decide

/-- Claim C4 (amended): when the credential is absent, every invocation of
the merge call raises the credential error before any network interaction
(zero remote calls are made), but the Retry Controller retries it like any
other error: five invocations with sleeps totalling 15 units, after which
the credential error is propagated. -/
theorem credential_retry_c4_amended (net : PyStr → Except MergeErr PyStr)
    (sentences : List PyStr) (hne : sentences ≠ []) :
    (call_openai_merge none net sentences).2 = 0 ∧
    backoff_call (fun _ => (call_openai_merge none net sentences).1) 5 =
      (some (.error .credential), 5, 15) := by
  have hcall : call_openai_merge none net sentences = (.error .credential, 0) := by
    simp [call_openai_merge, hne]
  constructor
  · rw [hcall]
  · have h := backoffLoop_allFail (fun _ => (call_openai_merge none net sentences).1)
      (fun _ => .credential) 5 0 0 0 (by omega) (fun i _ => by rw [hcall])
    simpa [geomSum_four] using h

/-- Witness for the amended claim C4 at a one-sentence list and a stub
network. -/
theorem credential_retry_c4_amended_witness :
    (call_openai_merge none netStub [['h', 'i']]).2 = 0 ∧
    backoff_call (fun _ => (call_openai_merge none netStub [['h', 'i']]).1) 5 =
      (some (.error .credential), 5, 15) :=
  credential_retry_c4_amended netStub [['h', 'i']] (by decide)

theorem lookupKey_append (k : PyStr) (l1 l2 : List (PyStr × Record)) :
    lookupKey k (l1 ++ l2) =
      match lookupKey k l1 with
      | some r => some r
      | none => lookupKey k l2 := by
  induction l1 with
  | nil => rfl
  | cons p rest ih =>
    obtain ⟨k2, r⟩ := p
    rw [List.cons_append]
    by_cases h : (k2 == k) = true
    · simp [lookupKey, h]
    · rw [show lookupKey k ((k2, r) :: (rest ++ l2)) = lookupKey k (rest ++ l2) by
        simp [lookupKey, h]]
      rw [show lookupKey k ((k2, r) :: rest) = lookupKey k rest by simp [lookupKey, h]]
      rw [ih]

theorem lookupKey_buildMappingAux (k : PyStr) :
    ∀ (rows : List Record) (acc : List (PyStr × Record)),
      lookupKey k (buildMappingAux acc rows) =
        match lookupKey k acc with
        | some r => some r
        | none => rows.find? (fun r => normalize_code r.1 == k) := by
  intro rows
  induction rows with
  | nil =>
    intro acc
    show lookupKey k acc = _
    cases lookupKey k acc <;> simp [List.find?]
  | cons r rest ih =>
    intro acc
    cases hl : lookupKey (normalize_code r.1) acc with
    | some r0 =>
      rw [show buildMappingAux acc (r :: rest) = buildMappingAux acc rest by
        simp [buildMappingAux, hl]]
      rw [ih acc]
      cases hk : lookupKey k acc with
      | some r1 => rfl
      | none =>
        have hp : (normalize_code r.1 == k) = false := by
          by_contra hcon
          simp only [Bool.not_eq_false, beq_iff_eq] at hcon
          rw [hcon, hk] at hl
          cases hl
        simp [List.find?_cons, hp]
    | none =>
      rw [show buildMappingAux acc (r :: rest) =
          buildMappingAux (acc ++ [(normalize_code r.1, r)]) rest by
        simp [buildMappingAux, hl]]
      rw [ih, lookupKey_append]
      cases hk : lookupKey k acc with
      | some r1 => rfl
      | none =>
        by_cases hp : (normalize_code r.1 == k) = true
        · simp [lookupKey, hp, List.find?_cons]
        · simp only [Bool.not_eq_true] at hp
          simp [lookupKey, hp, List.find?_cons]

theorem buildMapping_find (rows : List Record) (k : PyStr) :
    lookupKey k (buildMapping rows) = rows.find? (fun r => normalize_code r.1 == k) := by
  have h := lookupKey_buildMappingAux k rows []
  simpa [buildMapping, lookupKey] using h

theorem reorderRows_eq (mapping : List (PyStr × Record)) (desired : List PyStr) :
    reorderRows mapping desired =
      (desired.filterMap (fun code => lookupKey (normalize_code code) mapping),
       desired.filter (fun code => (lookupKey (normalize_code code) mapping).isNone)) := by
  induction desired with
  | nil => rfl
  | cons code rest ih =>
    cases h : lookupKey (normalize_code code) mapping with
    | some r => simp [reorderRows, h, ih, List.filterMap_cons, List.filter_cons]
    | none => simp [reorderRows, h, ih, List.filterMap_cons, List.filter_cons]

/-- Claim C2: the key-to-record mapping built by the Reorder Engine is
first-occurrence-wins — looking up any normalized key returns exactly the
first record of the merged table whose normalized sample code equals that
key, so later duplicates are dropped; in particular, of two rows normalizing
to the same key with different paragraphs, the emitted row holds the first
row's paragraph. -/
theorem reorder_first_wins_c2 :
    (∀ (rows : List Record) (k : PyStr),
        lookupKey k (buildMapping rows) = rows.find? (fun r => normalize_code r.1 == k)) ∧
    rearrangeCore [(['A'], ['p', '1']), (['a', ' '], ['p', '2'])] [['a']] =
      ([(['A'], ['p', '1'])], []) :=
  ⟨buildMapping_find, by decide⟩

/-- Claim C1: the Reorder Engine emits, for each canonical code in list order
whose normalized form is bound in the mapping, the stored record (with the
sample code spelled as in the merged table — every emitted row is a row of
the merged table), and appends each unresolved canonical code to the missing
list; on the spec example the output is `[("a","x"), ("B","y")]` with missing
`["C"]`. -/
theorem reorder_engine_c1 :
    (∀ (rows : List Record) (desired : List PyStr),
      (rearrangeCore rows desired).1 =
        desired.filterMap (fun code => lookupKey (normalize_code code) (buildMapping rows)) ∧
      (rearrangeCore rows desired).2 =
        desired.filter
          (fun code => (lookupKey (normalize_code code) (buildMapping rows)).isNone) ∧
      ∀ r ∈ (rearrangeCore rows desired).1, r ∈ rows) ∧
    rearrangeCore [(['a'], ['x']), (['B'], ['y'])] [['A'], ['b', ' '], ['C']] =
      ([(['a'], ['x']), (['B'], ['y'])], [['C']]) := by
  constructor
  · intro rows desired
    have hre := reorderRows_eq (buildMapping rows) desired
    refine ⟨by rw [rearrangeCore, hre], by rw [rearrangeCore, hre], ?_⟩
    intro r hr
    rw [rearrangeCore, hre] at hr
    simp only [List.mem_filterMap] at hr
    obtain ⟨code, _, hlk⟩ := hr
    rw [buildMapping_find] at hlk
    exact List.mem_of_find?_eq_some hlk
  · decide

/-- Witness for claim C1: on the concrete spec example, the emitted row
`("a","x")` is a row of the merged table. -/
theorem reorder_engine_c1_witness :
    ((['a'], ['x']) : Record) ∈ [((['a'], ['x']) : Record), (['B'], ['y'])] :=
  (reorder_engine_c1.1 [(['a'], ['x']), (['B'], ['y'])] [['A']]).2.2 (['a'], ['x']) (by decide)

/-- Claim C10: at the reorder stage, a table holding both a `sample_code` and
a `gpt_paragraph` column has exactly those two columns selected; otherwise a
table with at least two columns has its first and second columns used in
their place; and a table with fewer than two columns raises the
minimum-columns error and produces no reordered output. -/
theorem ensure_columns_c10 (df : Frame) :
    (df.columns.contains sampleCodeName = true →
      df.columns.contains gptParagraphName = true →
      ensure_columns df = .ok ⟨[(sampleCodeName, df.colData sampleCodeName),
        (gptParagraphName, df.colData gptParagraphName)]⟩) ∧
    (¬(df.columns.contains sampleCodeName = true ∧
        df.columns.contains gptParagraphName = true) →
      ∀ c1 c2 rest, df.cols = c1 :: c2 :: rest →
        ensure_columns df = .ok ⟨[(sampleCodeName, c1.2), (gptParagraphName, c2.2)]⟩) ∧
    (¬(df.columns.contains sampleCodeName = true ∧
        df.columns.contains gptParagraphName = true) →
      df.cols.length < 2 →
      ensure_columns df = .error minColsMsg ∧
      ∀ desired, rearrangeChecked df desired = .error minColsMsg) := by
  refine ⟨?_, ?_, ?_⟩
  · intro h1 h2
    have hcond : (df.columns.contains sampleCodeName &&
        df.columns.contains gptParagraphName) = true := by rw [h1, h2]; rfl
    unfold ensure_columns
    rw [if_pos hcond]
  · intro hno c1 c2 rest hcols
    have hcond : ¬(df.columns.contains sampleCodeName &&
        df.columns.contains gptParagraphName) = true := by
      intro hc
      rw [Bool.and_eq_true] at hc
      exact hno hc
    unfold ensure_columns
    rw [if_neg hcond, hcols]
  · intro hno hlen
    have hcond : ¬(df.columns.contains sampleCodeName &&
        df.columns.contains gptParagraphName) = true := by
      intro hc
      rw [Bool.and_eq_true] at hc
      exact hno hc
    have herr : ensure_columns df = .error minColsMsg := by
      unfold ensure_columns
      rw [if_neg hcond]
      match hcols : df.cols with
      | [] => rfl
      | [c1] => rfl
      | c1 :: c2 :: rest =>
        rw [hcols] at hlen
        simp only [List.length_cons] at hlen
        omega
    refine ⟨herr, fun desired => ?_⟩
    unfold rearrangeChecked
    rw [herr]

/-- Witness for claim C10 on three concrete frames: one with both named
columns, one with two differently named columns, and a one-column frame
whose reorder run aborts with the minimum-columns error. -/
theorem ensure_columns_c10_witness :
    ensure_columns ⟨[(sampleCodeName, [['x']]), (gptParagraphName, [['y']])]⟩ =
      .ok ⟨[(sampleCodeName, [['x']]), (gptParagraphName, [['y']])]⟩ ∧
    ensure_columns ⟨[(['a'], [['x']]), (['b'], [['y']])]⟩ =
      .ok ⟨[(sampleCodeName, [['x']]), (gptParagraphName, [['y']])]⟩ ∧
    rearrangeChecked ⟨[(['a'], [['x']])]⟩ [['a']] = .error minColsMsg := by
  refine ⟨?_, ?_, ?_⟩
  · have h := (ensure_columns_c10 ⟨[(sampleCodeName, [['x']]),
      (gptParagraphName, [['y']])]⟩).1 (by decide) (by decide)
    rw [h]
    decide
  · exact (ensure_columns_c10 ⟨[(['a'], [['x']]), (['b'], [['y']])]⟩).2.1 (by decide)
      (['a'], [['x']]) (['b'], [['y']]) [] rfl
  · exact ((ensure_columns_c10 ⟨[(['a'], [['x']])]⟩).2.2 (by decide) (by decide)).2 [['a']]

theorem char_toNat_ofNat_small {n : Nat} (h : n < 0xd800) : (Char.ofNat n).toNat = n := by
  have hv : n.isValidChar := Or.inl h
  rw [Char.ofNat, dif_pos hv]
  rfl

theorem char_toNat_inj {c d : Char} (h : c.toNat = d.toNat) : c = d :=
  Char.ext (UInt32.toNat.inj h)

theorem toUpper_cases (c : Char) :
    (Char.toUpper c = c ∧ ¬(97 ≤ c.toNat ∧ c.toNat ≤ 122)) ∨
    (97 ≤ c.toNat ∧ c.toNat ≤ 122 ∧ (Char.toUpper c).toNat = c.toNat - 32) := by
  by_cases h : Char.toNat c ≥ 97 ∧ Char.toNat c ≤ 122
  · right
    refine ⟨h.1, h.2, ?_⟩
    show (if Char.toNat c ≥ 97 ∧ Char.toNat c ≤ 122 then Char.ofNat (Char.toNat c - 32)
      else c).toNat = _
    rw [if_pos h]
    exact char_toNat_ofNat_small (by omega)
  · left
    constructor
    · show (if Char.toNat c ≥ 97 ∧ Char.toNat c ≤ 122 then Char.ofNat (Char.toNat c - 32)
        else c) = c
      rw [if_neg h]
    · exact h

theorem toLower_cases (c : Char) :
    (Char.toLower c = c ∧ ¬(65 ≤ c.toNat ∧ c.toNat ≤ 90)) ∨
    (65 ≤ c.toNat ∧ c.toNat ≤ 90 ∧ (Char.toLower c).toNat = c.toNat + 32) := by
  by_cases h : Char.toNat c ≥ 65 ∧ Char.toNat c ≤ 90
  · right
    refine ⟨h.1, h.2, ?_⟩
    show (if Char.toNat c ≥ 65 ∧ Char.toNat c ≤ 90 then Char.ofNat (Char.toNat c + 32)
      else c).toNat = _
    rw [if_pos h]
    exact char_toNat_ofNat_small (by omega)
  · left
    constructor
    · show (if Char.toNat c ≥ 65 ∧ Char.toNat c ≤ 90 then Char.ofNat (Char.toNat c + 32)
        else c) = c
      rw [if_neg h]
    · exact h

theorem isPySpace_toNat_le (c : Char) (h : isPySpace c = true) : c.toNat ≤ 32 := by
  simp only [isPySpace, Bool.or_eq_true, beq_iff_eq] at h
  rcases h with ((((h | h) | h) | h) | h) | h <;> subst h <;> decide

theorem isPySpace_false_of_gt {c : Char} (h : 32 < c.toNat) : isPySpace c = false := by
  cases hb : isPySpace c with
  | false => rfl
  | true => exact absurd (isPySpace_toNat_le c hb) (by omega)

theorem isPySpace_toUpper (c : Char) : isPySpace (Char.toUpper c) = isPySpace c := by
  rcases toUpper_cases c with ⟨heq, _⟩ | ⟨h1, _, hnat⟩
  · rw [heq]
  · rw [isPySpace_false_of_gt (show (32 : Nat) < c.toNat by omega),
      isPySpace_false_of_gt (show (32 : Nat) < (Char.toUpper c).toNat by omega)]

theorem isPySpace_toLower (c : Char) : isPySpace (Char.toLower c) = isPySpace c := by
  rcases toLower_cases c with ⟨heq, _⟩ | ⟨h1, _, hnat⟩
  · rw [heq]
  · rw [isPySpace_false_of_gt (show (32 : Nat) < c.toNat by omega),
      isPySpace_false_of_gt (show (32 : Nat) < (Char.toLower c).toNat by omega)]

theorem toUpper_beq_slash (c : Char) : (Char.toUpper c == '/') = (c == '/') := by
  rcases toUpper_cases c with ⟨heq, _⟩ | ⟨h1, h2, hnat⟩
  · rw [heq]
  · have hc : (c == '/') = false := by
      rw [beq_eq_false_iff_ne]
      intro hcc
      rw [hcc] at h1
      exact absurd h1 (by decide)
    have hu : (Char.toUpper c == '/') = false := by
      rw [beq_eq_false_iff_ne]
      intro hcc
      have h47 : (Char.toUpper c).toNat = 47 := by rw [hcc]; rfl
      omega
    rw [hc, hu]

theorem toLower_beq_slash (c : Char) : (Char.toLower c == '/') = (c == '/') := by
  rcases toLower_cases c with ⟨heq, _⟩ | ⟨h1, h2, hnat⟩
  · rw [heq]
  · have hc : (c == '/') = false := by
      rw [beq_eq_false_iff_ne]
      intro hcc
      rw [hcc] at h1
      exact absurd h1 (by decide)
    have hu : (Char.toLower c == '/') = false := by
      rw [beq_eq_false_iff_ne]
      intro hcc
      have h47 : (Char.toLower c).toNat = 47 := by rw [hcc]; rfl
      omega
    rw [hc, hu]

theorem toLower_toUpper (c : Char) : (Char.toUpper c).toLower = Char.toLower c := by
  rcases toUpper_cases c with ⟨heq, _⟩ | ⟨h1, h2, hnat⟩
  · rw [heq]
  · rcases toLower_cases (Char.toUpper c) with ⟨heq2, hn2⟩ | ⟨g1, g2, gnat⟩
    · exact absurd ⟨by omega, by omega⟩ hn2
    · have h4 : Char.toLower c = c := by
        rcases toLower_cases c with ⟨heq3, _⟩ | ⟨g3, g4, _⟩
        · exact heq3
        · omega
      rw [h4]
      exact char_toNat_inj (by omega)

theorem toLower_idem_char (c : Char) : (Char.toLower c).toLower = Char.toLower c := by
  rcases toLower_cases c with ⟨heq, _⟩ | ⟨h1, h2, hnat⟩
  · rw [heq, heq]
  · rcases toLower_cases (Char.toLower c) with ⟨heq2, _⟩ | ⟨g1, g2, _⟩
    · exact heq2
    · omega

theorem toLower_of_isPySpace {c : Char} (h : isPySpace c = true) : Char.toLower c = c := by
  rcases toLower_cases c with ⟨heq, _⟩ | ⟨h1, _, _⟩
  · exact heq
  · have := isPySpace_toNat_le c h
    omega

theorem toLower_beq_space (c : Char) : (Char.toLower c == ' ') = (c == ' ') := by
  rcases toLower_cases c with ⟨heq, _⟩ | ⟨h1, h2, hnat⟩
  · rw [heq]
  · have hc : (c == ' ') = false := by
      rw [beq_eq_false_iff_ne]
      intro hcc
      rw [hcc] at h1
      exact absurd h1 (by decide)
    have hu : (Char.toLower c == ' ') = false := by
      rw [beq_eq_false_iff_ne]
      intro hcc
      have h32 : (Char.toLower c).toNat = 32 := by rw [hcc]; rfl
      omega
    rw [hc, hu]

theorem dropWhile_map_of_pred (f : Char → Char) (p : Char → Bool)
    (hp : ∀ c, p (f c) = p c) (s : PyStr) :
    (s.map f).dropWhile p = (s.dropWhile p).map f := by
  rw [List.dropWhile_map]
  have hpe : (p ∘ f) = p := funext hp
  rw [hpe]

theorem dropEndWhile_map_of_pred (f : Char → Char) (p : Char → Bool)
    (hp : ∀ c, p (f c) = p c) (s : PyStr) :
    dropEndWhile p (s.map f) = (dropEndWhile p s).map f := by
  unfold dropEndWhile
  rw [← List.map_reverse, dropWhile_map_of_pred f p hp, List.map_reverse]

theorem pyStrip_map_of_pred (f : Char → Char) (hp : ∀ c, isPySpace (f c) = isPySpace c)
    (s : PyStr) : pyStrip (s.map f) = (pyStrip s).map f := by
  unfold pyStrip
  rw [dropWhile_map_of_pred f isPySpace hp, dropEndWhile_map_of_pred f isPySpace hp]

theorem collapseWSAux_map_of_pred (f : Char → Char) (hp : ∀ c, isPySpace (f c) = isPySpace c)
    (hspace : f ' ' = ' ') : ∀ (b : Bool) (s : PyStr),
    collapseWSAux b (s.map f) = (collapseWSAux b s).map f := by
  intro b s
  induction s generalizing b with
  | nil => rfl
  | cons c rest ih =>
    cases hc : isPySpace c with
    | true =>
      cases b with
      | true => simp [collapseWSAux, hp, hc, ih]
      | false => simp [collapseWSAux, hp, hc, ih, hspace]
    | false => simp [collapseWSAux, hp, hc, ih]

theorem pyRstripSlash_map_of_pred (f : Char → Char) (hp : ∀ c, (f c == '/') = (c == '/'))
    (s : PyStr) : pyRstripSlash (s.map f) = (pyRstripSlash s).map f := by
  unfold pyRstripSlash
  exact dropEndWhile_map_of_pred f _ hp s

theorem pyLower_pyUpper (s : PyStr) : pyLower (pyUpper s) = pyLower s := by
  unfold pyLower pyUpper
  rw [List.map_map]
  congr 1
  funext c
  exact toLower_toUpper c

theorem pyLower_idem (s : PyStr) : pyLower (pyLower s) = pyLower s := by
  unfold pyLower
  rw [List.map_map]
  congr 1
  funext c
  exact toLower_idem_char c

theorem normalize_code_upper (s : PyStr) : normalize_code (pyUpper s) = normalize_code s := by
  show pyLower (pyRstripSlash (collapseWS (pyStrip (pyUpper s)))) = normalize_code s
  unfold pyUpper collapseWS
  rw [pyStrip_map_of_pred Char.toUpper isPySpace_toUpper,
    collapseWSAux_map_of_pred Char.toUpper isPySpace_toUpper (by decide),
    pyRstripSlash_map_of_pred Char.toUpper toUpper_beq_slash]
  exact pyLower_pyUpper _

theorem headNotSpace_collapseWSAux_true (s : PyStr) :
    headNotSpace (collapseWSAux true s) = true := by
  induction s with
  | nil => rfl
  | cons c rest ih =>
    cases hc : isPySpace c with
    | true => simpa [collapseWSAux, hc] using ih
    | false => simp [collapseWSAux, hc, headNotSpace]

theorem wellSpaced_cons_nonspace {c : Char} (hc : isPySpace c = false) (l : PyStr) :
    wellSpaced (c :: l) = wellSpaced l := by
  cases l with
  | nil => simp [wellSpaced, hc]
  | cons d rest => simp [wellSpaced, hc]

theorem wellSpaced_cons_space (l : PyStr) :
    wellSpaced (' ' :: l) = (headNotSpace l && wellSpaced l) := by
  have h1 : isPySpace ' ' = true := rfl
  have h2 : (' ' == ' ') = true := rfl
  cases l with
  | nil => simp [wellSpaced, headNotSpace, h1, h2]
  | cons d rest => simp [wellSpaced, headNotSpace, h1, h2]

theorem wellSpaced_space_head {c : Char} {rest : PyStr} (hc : isPySpace c = true)
    (h : wellSpaced (c :: rest) = true) :
    c = ' ' ∧ headNotSpace rest = true ∧ wellSpaced rest = true := by
  cases rest with
  | nil =>
    simp only [wellSpaced, hc, Bool.not_true, Bool.false_or, beq_iff_eq] at h
    exact ⟨h, rfl, rfl⟩
  | cons d r2 =>
    simp only [wellSpaced, hc, Bool.not_true, Bool.false_or, Bool.and_eq_true,
      beq_iff_eq, headNotSpace] at h ⊢
    exact ⟨h.1.1, h.1.2, h.2⟩

theorem wellSpaced_collapseWSAux : ∀ (b : Bool) (s : PyStr),
    wellSpaced (collapseWSAux b s) = true := by
  intro b s
  induction s generalizing b with
  | nil => rfl
  | cons c rest ih =>
    cases hc : isPySpace c with
    | true =>
      cases b with
      | true =>
        rw [show collapseWSAux true (c :: rest) = collapseWSAux true rest by
          simp [collapseWSAux, hc]]
        exact ih true
      | false =>
        rw [show collapseWSAux false (c :: rest) = ' ' :: collapseWSAux true rest by
          simp [collapseWSAux, hc]]
        rw [wellSpaced_cons_space, headNotSpace_collapseWSAux_true, ih true]
        rfl
    | false =>
      rw [show collapseWSAux b (c :: rest) = c :: collapseWSAux false rest by
        simp [collapseWSAux, hc]]
      rw [wellSpaced_cons_nonspace hc]
      exact ih false

theorem wellSpaced_append_left : ∀ (x y : PyStr),
    wellSpaced (x ++ y) = true → wellSpaced x = true := by
  intro x
  induction x with
  | nil => intro y _; rfl
  | cons c t ih =>
    intro y h
    cases t with
    | nil =>
      cases y with
      | nil => simpa using h
      | cons d y2 =>
        rw [List.cons_append, List.nil_append] at h
        cases hc : isPySpace c with
        | false => simp [wellSpaced, hc]
        | true =>
          obtain ⟨hce, _, _⟩ := wellSpaced_space_head hc h
          subst hce
          simp [wellSpaced]
    | cons d t2 =>
      rw [List.cons_append] at h
      cases hc : isPySpace c with
      | false =>
        rw [wellSpaced_cons_nonspace hc] at h ⊢
        exact ih y h
      | true =>
        obtain ⟨hce, hhead, htail⟩ := wellSpaced_space_head hc h
        subst hce
        rw [wellSpaced_cons_space]
        rw [List.cons_append] at hhead
        have hh2 : headNotSpace (d :: t2) = true := hhead
        rw [hh2, ih y htail]
        rfl

theorem rdropWhile_append_decomp (p : Char → Bool) (l : PyStr) :
    l = l.rdropWhile p ++ (l.reverse.takeWhile p).reverse := by
  have h := List.takeWhile_append_dropWhile (p := p) (l := l.reverse)
  calc l = l.reverse.reverse := (List.reverse_reverse l).symm
  _ = (l.reverse.takeWhile p ++ l.reverse.dropWhile p).reverse := by rw [h]
  _ = (l.reverse.dropWhile p).reverse ++ (l.reverse.takeWhile p).reverse := by
    rw [List.reverse_append]
  _ = l.rdropWhile p ++ (l.reverse.takeWhile p).reverse := rfl

theorem wellSpaced_rdropWhile (p : Char → Bool) {l : PyStr} (h : wellSpaced l = true) :
    wellSpaced (l.rdropWhile p) = true := by
  apply wellSpaced_append_left _ ((l.reverse.takeWhile p).reverse)
  rw [← rdropWhile_append_decomp]
  exact h

theorem wellSpaced_map_toLower (l : PyStr) :
    wellSpaced (l.map Char.toLower) = wellSpaced l := by
  induction l with
  | nil => rfl
  | cons c t ih =>
    cases t with
    | nil => simp [wellSpaced, isPySpace_toLower, toLower_beq_space]
    | cons d t2 =>
      simp only [List.map_cons, wellSpaced, isPySpace_toLower, toLower_beq_space]
      simp only [List.map_cons] at ih
      rw [ih]

theorem collapseWSAux_fixed : ∀ (t : PyStr), wellSpaced t = true →
    collapseWSAux false t = t ∧ (headNotSpace t = true → collapseWSAux true t = t) := by
  intro t
  induction t with
  | nil => intro _; exact ⟨rfl, fun _ => rfl⟩
  | cons c rest ih =>
    intro h
    cases hc : isPySpace c with
    | false =>
      have hrest : wellSpaced rest = true := by
        rw [wellSpaced_cons_nonspace hc] at h
        exact h
      have hfix := (ih hrest).1
      constructor
      · rw [show collapseWSAux false (c :: rest) = c :: collapseWSAux false rest by
          simp [collapseWSAux, hc]]
        rw [hfix]
      · intro _
        rw [show collapseWSAux true (c :: rest) = c :: collapseWSAux false rest by
          simp [collapseWSAux, hc]]
        rw [hfix]
    | true =>
      obtain ⟨hce, hhead, htail⟩ := wellSpaced_space_head hc h
      subst hce
      constructor
      · rw [show collapseWSAux false (' ' :: rest) = ' ' :: collapseWSAux true rest by
          simp [collapseWSAux, hc]]
        rw [(ih htail).2 hhead]
      · intro h2
        rw [headNotSpace] at h2
        simp [hc] at h2

theorem wellSpaced_normalize_code (s : PyStr) : wellSpaced (normalize_code s) = true := by
  show wellSpaced (pyLower (pyRstripSlash (collapseWS (pyStrip s)))) = true
  unfold pyLower pyRstripSlash dropEndWhile
  rw [wellSpaced_map_toLower]
  exact wellSpaced_rdropWhile _ (wellSpaced_collapseWSAux false (pyStrip s))

theorem pyRstripSlash_normalize_code (s : PyStr) :
    pyRstripSlash (normalize_code s) = normalize_code s := by
  show pyRstripSlash (pyLower (pyRstripSlash (collapseWS (pyStrip s)))) = _
  unfold pyLower
  rw [pyRstripSlash_map_of_pred Char.toLower toLower_beq_slash]
  rw [show pyRstripSlash (pyRstripSlash (collapseWS (pyStrip s))) =
      pyRstripSlash (collapseWS (pyStrip s)) from
    List.rdropWhile_idempotent _ _]
  rfl

theorem pyLower_normalize_code (s : PyStr) :
    pyLower (normalize_code s) = normalize_code s := by
  show pyLower (pyLower (pyRstripSlash (collapseWS (pyStrip s)))) = _
  rw [pyLower_idem]
  rfl

/-- Claim C6 counterexample: key normalization is not idempotent; for the
code `"a /"` the normalized form is `"a "` (stripping the trailing slash
uncovers a trailing space), which normalizes again to `"a"`. -/
theorem key_normalizer_c6_counterexample :
    normalize_code (normalize_code ['a', ' ', '/']) ≠ normalize_code ['a', ' ', '/'] := by
  decide

/-- Claim C6 (amended): key normalization is case-insensitive —
`normalize_code (c.upper()) = normalize_code c` for every code — and it is
idempotent on every code whose normalized form carries no outer whitespace
(stripping trailing slashes can uncover a trailing space, as in `"a /"`,
which re-normalizes differently). -/
theorem key_normalizer_c6_amended :
    (∀ s : PyStr, normalize_code (pyUpper s) = normalize_code s) ∧
    (∀ s : PyStr, pyStrip (normalize_code s) = normalize_code s →
      normalize_code (normalize_code s) = normalize_code s) := by
  constructor
  · exact normalize_code_upper
  · intro s hstrip
    show pyLower (pyRstripSlash (collapseWS (pyStrip (normalize_code s)))) = normalize_code s
    rw [hstrip]
    rw [show collapseWS (normalize_code s) = normalize_code s from
      (collapseWSAux_fixed _ (wellSpaced_normalize_code s)).1]
    rw [pyRstripSlash_normalize_code, pyLower_normalize_code]

/-- Witness for the amended claim C6 at the code `"a B"`. -/
theorem key_normalizer_c6_amended_witness :
    normalize_code (normalize_code ['a', ' ', 'B']) = normalize_code ['a', ' ', 'B'] :=
  key_normalizer_c6_amended.2 ['a', ' ', 'B'] (by decide)

theorem hasWord_eq_false_iff (r : PyStr) :
    hasWord r = false ↔ ∀ x ∈ r, isPySpace x = true := by
  unfold hasWord
  rw [List.any_eq_false]
  constructor
  · intro h x hx
    have hh := h x hx
    simpa using hh
  · intro h x hx
    simpa using h x hx

theorem specTrimCollapseAux_allspace : ∀ (r : PyStr) (b : Bool),
    (∀ x ∈ r, isPySpace x = true) → specTrimCollapseAux b r = [] := by
  intro r
  induction r with
  | nil => intro b _; rfl
  | cons d r2 ih =>
    intro b h
    have hd := h d (List.mem_cons_self d r2)
    have hrest : ∀ x ∈ r2, isPySpace x = true := fun x hx => h x (List.mem_cons_of_mem d hx)
    have hw : hasWord r2 = false := (hasWord_eq_false_iff r2).mpr hrest
    rw [show specTrimCollapseAux b (d :: r2) = specTrimCollapseAux false r2 by
      simp [specTrimCollapseAux, hd, hw]]
    exact ih false hrest

theorem collapseWSAux_true_dropWhile : ∀ l : PyStr,
    collapseWSAux true l = collapseWSAux false (l.dropWhile isPySpace) := by
  intro l
  induction l with
  | nil => rfl
  | cons c r ih =>
    cases hc : isPySpace c with
    | true =>
      rw [show collapseWSAux true (c :: r) = collapseWSAux true r by
        simp [collapseWSAux, hc]]
      rw [ih, List.dropWhile_cons, if_pos (by simp [hc])]
    | false =>
      rw [List.dropWhile_cons, if_neg (by simp [hc])]
      simp [collapseWSAux, hc]

theorem specTrimCollapse_eq : ∀ t : PyStr,
    specTrimCollapseAux false t = collapseWSAux false (pyStrip t) ∧
    specTrimCollapseAux true t = collapseWSAux false (t.rdropWhile isPySpace) := by
  intro t
  induction t with
  | nil => exact ⟨rfl, rfl⟩
  | cons c r ih =>
    obtain ⟨ihP, ihQ⟩ := ih
    cases hc : isPySpace c with
    | false =>
      have hps : pyStrip (c :: r) = (c :: r).rdropWhile isPySpace := by
        unfold pyStrip dropEndWhile
        rw [List.dropWhile_cons, if_neg (by simp [hc])]
        rfl
      have hQgoal : specTrimCollapseAux true (c :: r) =
          collapseWSAux false ((c :: r).rdropWhile isPySpace) := by
        rw [show specTrimCollapseAux true (c :: r) = c :: specTrimCollapseAux true r by
          simp [specTrimCollapseAux, hc]]
        rw [rdropWhile_cons_chars]
        by_cases hre : (r.rdropWhile isPySpace).isEmpty = true
        · rw [if_pos hre, if_neg (by simp [hc])]
          have hall : ∀ x ∈ r, isPySpace x = true := by
            rw [List.isEmpty_iff] at hre
            exact List.rdropWhile_eq_nil_iff.mp hre
          rw [specTrimCollapseAux_allspace r true hall]
          simp [collapseWSAux, hc]
        · rw [if_neg hre]
          rw [show collapseWSAux false (c :: r.rdropWhile isPySpace) =
              c :: collapseWSAux false (r.rdropWhile isPySpace) by simp [collapseWSAux, hc]]
          rw [ihQ]
      refine ⟨?_, hQgoal⟩
      rw [hps]
      rw [show specTrimCollapseAux false (c :: r) = c :: specTrimCollapseAux true r by
        simp [specTrimCollapseAux, hc]]
      rw [show specTrimCollapseAux true (c :: r) = c :: specTrimCollapseAux true r by
        simp [specTrimCollapseAux, hc]] at hQgoal
      exact hQgoal
    | true =>
      constructor
      · rw [show specTrimCollapseAux false (c :: r) = specTrimCollapseAux false r by
          simp [specTrimCollapseAux, hc]]
        rw [ihP]
        have hstrip : pyStrip (c :: r) = pyStrip r := by
          unfold pyStrip dropEndWhile
          rw [List.dropWhile_cons, if_pos (by simp [hc])]
        rw [hstrip]
      · cases hw : hasWord r with
        | false =>
          have hall : ∀ x ∈ r, isPySpace x = true := (hasWord_eq_false_iff r).mp hw
          rw [show specTrimCollapseAux true (c :: r) = specTrimCollapseAux false r by
            simp [specTrimCollapseAux, hc, hw]]
          rw [specTrimCollapseAux_allspace r false hall]
          have hrnil : r.rdropWhile isPySpace = [] := List.rdropWhile_eq_nil_iff.mpr hall
          rw [rdropWhile_cons_chars, hrnil]
          simp [hc, collapseWSAux]
        | true =>
          rw [show specTrimCollapseAux true (c :: r) = ' ' :: specTrimCollapseAux false r by
            simp [specTrimCollapseAux, hc, hw]]
          have hrne : ¬(r.rdropWhile isPySpace).isEmpty = true := by
            intro hre
            rw [List.isEmpty_iff] at hre
            have hall := List.rdropWhile_eq_nil_iff.mp hre
            rw [(hasWord_eq_false_iff r).mpr hall] at hw
            cases hw
          rw [rdropWhile_cons_chars, if_neg hrne]
          rw [show collapseWSAux false (c :: r.rdropWhile isPySpace) =
              ' ' :: collapseWSAux true (r.rdropWhile isPySpace) by simp [collapseWSAux, hc]]
          rw [collapseWSAux_true_dropWhile, dropWhile_rdropWhile_comm, ihP]
          rfl

theorem specTrimCollapse_eq_code (s : PyStr) : specTrimCollapse s = collapseWS (pyStrip s) :=
  (specTrimCollapse_eq s).1

/-- Claim C7 counterexample: key normalization does not strip a single
trailing separator only; on `"a//"` the spec-side composition keeps one
slash while the code strips both. -/
theorem key_normalizer_c7_counterexample :
    specNormalizeSingleSlash ['a', '/', '/'] ≠ normalize_code ['a', '/', '/'] ∧
    specNormalizeSingleSlash ['a', '/', '/'] = ['a', '/'] ∧
    normalize_code ['a', '/', '/'] = ['a'] := by decide

/-- Claim C7 (amended): key normalization equals the composition trim outer
whitespace → collapse each internal whitespace run to a single space →
strip ALL trailing path-separator characters → lowercase; in particular a
code ending in two separators keeps none. -/
theorem key_normalizer_c7_amended (s : PyStr) :
    normalize_code s = pyLower (pyRstripSlash (specTrimCollapse s)) := by
  rw [specTrimCollapse_eq_code]
  rfl

end CMF
